import Mathlib

/-!
Verification of the thresholding-and-watershed segmentation core described by
the repository's two example scripts
(`doc/examples/applications/plot_coins_segmentation.py` and
`doc/examples/applications/plot_thresholding_guide.py`) together with the
specification of the algorithmic engine they invoke.  The library functions
(`skimage.segmentation.watershed`, `skimage.filters.threshold_otsu`, ...) are
not part of the repository's source tree, so those engines are modelled from
the specification; the marker construction and the binarisation comparisons,
which do appear verbatim in the scripts, are embedded from the source.
-/

namespace SpecProof

/-- Pixel coordinates of an `h × w` image: a pair of bounded indices. -/
abbrev Pos (h w : Nat) := Fin h × Fin w

/-- All pixel positions of an `h × w` grid in row-major order. -/
def posList (h w : Nat) : List (Pos h w) :=
  (List.finRange h).flatMap fun i => (List.finRange w).map fun j => (i, j)

/-- Connectivity setting of the watershed engine: 4- or 8-neighbourhood. -/
inductive Conn where
  | c4 : Conn
  | c8 : Conn
deriving DecidableEq

/-- Coordinate offsets of each connectivity (the (0,0) offset is excluded). -/
def nbOffsets : Conn → List (Int × Int)
  | Conn.c4 => [(-1, 0), (0, -1), (0, 1), (1, 0)]
  | Conn.c8 => [(-1, -1), (-1, 0), (-1, 1), (0, -1), (0, 1), (1, -1), (1, 0), (1, 1)]

/-- Neighbours of a pixel under a connectivity: offsets that stay in bounds. -/
def neighbors (c : Conn) {h w : Nat} (p : Pos h w) : List (Pos h w) :=
  (nbOffsets c).filterMap fun d =>
    let i : Int := (p.1 : Nat) + d.1
    let j : Int := (p.2 : Nat) + d.2
    if hb : 0 ≤ i ∧ i < (h : Int) ∧ 0 ≤ j ∧ j < (w : Int) then
      some (⟨i.toNat, by omega⟩, ⟨j.toNat, by omega⟩)
    else none

/-- Entry of the watershed priority queue: the elevation used as priority, the
pixel proposed for assignment and the label proposed for it. -/
structure QEntry (h w : Nat) where
  prio : Nat
  pos : Pos h w
  lab : Nat
deriving DecidableEq

/-- State of the flooding loop: the labels assigned so far (0 = unassigned
sentinel) and the pending queue, kept in insertion order. -/
structure WState (h w : Nat) where
  labels : Pos h w → Nat
  queue : List (QEntry h w)

/-- Modelled from the spec: retrieve-and-remove the minimum-priority entry of
the queue, ties broken FIFO (the earliest inserted among minimal priorities);
`none` on an empty queue.  The remaining entries keep their relative order. -/
def popMin {h w : Nat} : List (QEntry h w) → Option (QEntry h w × List (QEntry h w))
  | [] => none
  | e :: rest =>
    match popMin rest with
    | none => some (e, rest)
    | some (e', rest') => if e.prio ≤ e'.prio then some (e, rest) else some (e', e :: rest')

/-- Entries pushed after a pixel assignment: every neighbour of the assigned
pixel that is still unlabeled and has finite elevation, with priority equal to
that neighbour's elevation and carrying the just-assigned label. -/
def pushEntries {h w : Nat} (e : Pos h w → Option Nat) (c : Conn)
    (labels' : Pos h w → Nat) (pos : Pos h w) (lab : Nat) : List (QEntry h w) :=
  (neighbors c pos).filterMap fun n =>
    if labels' n = 0 then (e n).map fun v => QEntry.mk v n lab else none

/-- Modelled from the spec (§4.5, step 3 of `skimage.segmentation.watershed`,
absent from `src/`): one iteration of the priority flood.  Pop the lowest
entry; discard it if its pixel is already labeled (lazy deletion), otherwise
assign the proposed label and push every still-unlabeled neighbour of finite
elevation with priority equal to that neighbour's elevation.  `none` when the
queue is empty. -/
def wstep {h w : Nat} (e : Pos h w → Option Nat) (c : Conn) (s : WState h w) :
    Option (WState h w) :=
  match popMin s.queue with
  | none => none
  | some (ent, rest) =>
    if s.labels ent.pos = 0 then
      let labels' := Function.update s.labels ent.pos ent.lab
      some ⟨labels', rest ++ pushEntries e c labels' ent.pos ent.lab⟩
    else
      some ⟨s.labels, rest⟩

/-- Run the flooding loop for at most `fuel` iterations. -/
def runW {h w : Nat} (e : Pos h w → Option Nat) (c : Conn) : Nat → WState h w → WState h w
  | 0, s => s
  | fuel + 1, s =>
    match wstep e c s with
    | none => s
    | some s' => runW e c fuel s'

/-- Modelled from the spec (§4.5, step 2): the initial queue, seeded with every
unlabeled finite-elevation pixel adjacent to a marker, tagged with that
marker's label, scanning markers in row-major order. -/
def seedQueue {h w : Nat} (e : Pos h w → Option Nat) (m : Pos h w → Nat) (c : Conn) :
    List (QEntry h w) :=
  (posList h w).flatMap fun q =>
    if m q ≠ 0 then
      (neighbors c q).filterMap fun p =>
        if m p = 0 then (e p).map fun v => QEntry.mk v p (m q) else none
    else []

/-- Number of pixels still bearing the unassigned sentinel. -/
def unlabeledCount {h w : Nat} (s : WState h w) : Nat :=
  (Finset.univ.filter fun p : Pos h w => s.labels p = 0).card

/-- Fuel sufficient to drain the queue: every iteration pops one entry, and at
most eight entries are pushed per pixel assignment. -/
def wfuel {h w : Nat} (e : Pos h w → Option Nat) (m : Pos h w → Nat) (c : Conn) : Nat :=
  (seedQueue e m c).length + 8 * h * w

/-- Modelled from the spec (§4.5): the unchecked watershed core.  Labels start
at the marker map (markers are pre-labeled), the queue starts at the seed
entries, and the flood runs until the queue is empty. -/
def watershedRun {h w : Nat} (e : Pos h w → Option Nat) (m : Pos h w → Nat) (c : Conn) :
    WState h w :=
  runW e c (wfuel e m c) ⟨m, seedQueue e m c⟩

/-- Error raised by the watershed engine on a marker map without seeds. -/
inductive WatershedErr where
  | emptyMarkerSet : WatershedErr
deriving DecidableEq

/-- Modelled from the spec: `skimage.segmentation.watershed` (absent from
`src/`); validates that at least one marker is present, then floods. -/
def watershed {h w : Nat} (e : Pos h w → Option Nat) (m : Pos h w → Nat) (c : Conn) :
    Except WatershedErr (WState h w) :=
  if _hAll : ∀ p : Pos h w, m p = 0 then Except.error WatershedErr.emptyMarkerSet
  else Except.ok (watershedRun e m c)

/-- The output label map rendered as a dense row-major grid of rows, used to
state that the output has the same shape as the image. -/
def labelGrid {h w : Nat} (L : Pos h w → Nat) : List (List Nat) :=
  (List.finRange h).map fun i => (List.finRange w).map fun j => L (i, j)

/-- Reachability of a pixel under the flood rule: markers are reachable, and a
finite-elevation neighbour of a reachable pixel is reachable. -/
inductive Reachable {h w : Nat} (e : Pos h w → Option Nat) (m : Pos h w → Nat) (c : Conn) :
    Pos h w → Prop where
  | marker (p : Pos h w) : m p ≠ 0 → Reachable e m c p
  | flood (q p : Pos h w) : Reachable e m c q → p ∈ neighbors c q → e p ≠ none →
      Reachable e m c p

/-- Relational one-step semantics of the flood: some entry that attains the
minimal priority and is the earliest inserted among those (the FIFO tie-break
of the spec) is removed and processed.  `wstep` implements this relation, and
the relation is proved functional, which is what makes the engine
deterministic. -/
def StepR {h w : Nat} (e : Pos h w → Option Nat) (c : Conn) (s t : WState h w) : Prop :=
  ∃ ent : QEntry h w, ∃ a b : List (QEntry h w),
    s.queue = a ++ ent :: b ∧
    (∀ x ∈ a, ent.prio < x.prio) ∧
    (∀ x ∈ s.queue, ent.prio ≤ x.prio) ∧
    t = (if s.labels ent.pos = 0 then
      let labels' := Function.update s.labels ent.pos ent.lab
      ⟨labels', (a ++ b) ++ pushEntries e c labels' ent.pos ent.lab⟩
    else ⟨s.labels, a ++ b⟩)

/-- A complete run of the relational engine: from the seeded initial state,
steps of `StepR` reach a state with an empty queue whose labels are the
output. -/
def EngineRun {h w : Nat} (e : Pos h w → Option Nat) (m : Pos h w → Nat) (c : Conn)
    (L : Pos h w → Nat) : Prop :=
  ∃ s : WState h w, Relation.ReflTransGen (StepR e c) ⟨m, seedQueue e m c⟩ s ∧
    s.queue = [] ∧ L = s.labels

/-- Errors raised by the thresholding components. -/
inductive ThErr where
  | nonBimodalHistogram : ThErr
  | invalidParameter : ThErr
deriving DecidableEq

/-- Sum of index-weighted counts of a histogram: `Σ i, i * hist[i]`. -/
def wsum (hist : List Nat) : Nat :=
  (hist.enum.map fun x => x.1 * x.2).sum

/-- Modelled from the spec (§4.2): between-class variance of the split of a
histogram at candidate `t` (class 0 = bins below `t`, class 1 = bins from `t`
up): `w0 * w1 * (mu0 - mu1)^2` with `w0, w1` the class probability masses and
`mu0, mu1` the class mean intensities.  Rational arithmetic; a division by a
zero mass yields 0, hence an empty class contributes zero variance. -/
def bcv (hist : List Nat) (t : Nat) : ℚ :=
  let N : ℚ := (hist.sum : Nat)
  let n0 : ℚ := ((hist.take t).sum : Nat)
  let n1 : ℚ := N - n0
  let s0 : ℚ := (wsum (hist.take t) : Nat)
  let s1 : ℚ := ((wsum hist : Nat) : ℚ) - s0
  (n0 / N) * (n1 / N) * (s0 / n0 - s1 / n1) ^ 2

/-- First maximiser of `f` over a candidate list: later candidates replace the
incumbent only when strictly greater, so ties keep the earliest candidate. -/
def argmaxQ (f : Nat → ℚ) : List Nat → Option Nat
  | [] => none
  | t :: ts =>
    match argmaxQ f ts with
    | none => some t
    | some t' => if f t < f t' then some t' else some t

/-- Modelled from the spec (§4.2): `skimage.filters.threshold_otsu` on a
histogram (absent from `src/`).  Scans every candidate split point of the
histogram domain and returns the one maximising the between-class variance,
smallest candidate among ties. -/
def threshold_otsu (hist : List Nat) : Nat :=
  (argmaxQ (bcv hist) (List.range hist.length)).getD 0

/-- Element of a count list at an index clamped into bounds (used for the
border handling of the 3-tap smoothing kernel). -/
def getClamp (l : List Nat) (i : Nat) : Nat :=
  l.getD (min i (l.length - 1)) 0

/-- Modelled from the spec (§4.2): one pass of the fixed 3-tap box smoothing
kernel over a histogram (kernel `[1, 1, 1]`, kept unnormalised so that counts
stay integral; local maxima are invariant under the positive scaling), edges
handled by clamping (nearest extension). -/
def smooth3 (l : List Nat) : List Nat :=
  (List.range l.length).map fun i => getClamp l (i - 1) + getClamp l i + getClamp l (i + 1)

/-- A strict interior local maximum of a count list. -/
def isLocalMax (l : List Nat) (i : Nat) : Prop :=
  getClamp l (i - 1) < getClamp l i ∧ getClamp l (i + 1) < getClamp l i

instance (l : List Nat) (i : Nat) : Decidable (isLocalMax l i) := by
  unfold isLocalMax; infer_instance

/-- Number of strict interior local maxima of a list. -/
def maximaCount (l : List Nat) : Nat :=
  ((List.range l.length).filter fun i => decide (isLocalMax l i)).length

/-- First minimiser of `f` over a candidate list (ties keep the earliest). -/
def argminN (f : Nat → Nat) : List Nat → Option Nat
  | [] => none
  | t :: ts =>
    match argminN f ts with
    | none => some t
    | some t' => if f t' < f t then some t' else some t

/-- Position of the minimum of a bimodal smoothed histogram between its two
maxima (the returned threshold once bimodality is reached). -/
def minBetween (l : List Nat) : Nat :=
  let maxs := (List.range l.length).filter fun i => decide (isLocalMax l i)
  match maxs with
  | i1 :: i2 :: _ => (argminN (getClamp l) ((List.range (i2 + 1)).drop i1)).getD 0
  | _ => 0

/-- Modelled from the spec (§4.2): the smoothing loop of
`skimage.filters.threshold_minimum`; smooth until exactly two local maxima
remain, giving up after the iteration budget runs out. -/
def thresholdMinimumAux : Nat → List Nat → Except ThErr Nat
  | 0, l => if maximaCount l = 2 then Except.ok (minBetween l) else Except.error ThErr.nonBimodalHistogram
  | fuel + 1, l =>
    if maximaCount l = 2 then Except.ok (minBetween l)
    else thresholdMinimumAux fuel (smooth3 l)

/-- Modelled from the spec (§4.2): `skimage.filters.threshold_minimum` (absent
from `src/`) with its explicit iteration cap `maxIter` (the library default is
10000). -/
def threshold_minimum (maxIter : Nat) (hist : List Nat) : Except ThErr Nat :=
  thresholdMinimumAux maxIter hist

/-- The `k`-fold smoothing of a histogram. -/
def smoothIter : Nat → List Nat → List Nat
  | 0, l => l
  | k + 1, l => smoothIter k (smooth3 l)

/-- Modelled from the spec (§4.3): `skimage.filters.threshold_local` (absent
from `src/`).  Validates that the block size is a positive odd integer, then
for each pixel takes the mean intensity of the `blockSize × blockSize`
neighbourhood centred on it and subtracts `offset`.  Out-of-range coordinates
are resolved by the border-handling policies `polH`/`polW`, arbitrary maps
from integer coordinates to valid indices (reflect, nearest, ...). -/
def threshold_local {h w : Nat} (img : Pos h w → ℚ) (blockSize : Nat) (offset : ℚ)
    (polH : Int → Fin h) (polW : Int → Fin w) : Except ThErr (Pos h w → ℚ) :=
  if blockSize % 2 = 1 then
    Except.ok fun p =>
      let r : Int := (blockSize / 2 : Nat)
      let vals := (List.range (blockSize * blockSize)).map fun k =>
        img (polH ((p.1 : Nat) + (k / blockSize : Nat) - r),
             polW ((p.2 : Nat) + (k % blockSize : Nat) - r))
      vals.sum / ((blockSize * blockSize : Nat) : ℚ) - offset
  else Except.error ThErr.invalidParameter

/-- A concrete reflect border policy for an axis of positive extent. -/
def reflectIdx (n : Nat) (hn : 0 < n) (i : Int) : Fin n :=
  ⟨(i % (n : Int)).toNat % n, Nat.mod_lt _ hn⟩

/-- Modelled from the spec (§4.1): region-restricted histogram accumulation of
the shared HistogramIndex — for each of `B` bins, count the pixels of the
region whose intensity falls in that bin. -/
def regionHistogram {h w : Nat} (img : Pos h w → Nat) (B : Nat) (region : List (Pos h w)) :
    List Nat :=
  (List.range B).map fun v => (region.filter fun p => img p = v).length

/-- Histogram built by the rank-filter mechanism: start from `B` empty bins and
increment one bin per observed value. -/
def accumHist (B : Nat) (vals : List Nat) : List Nat :=
  vals.foldl (fun hst v => hst.set v (hst.getD v 0 + 1)) (List.replicate B 0)

/-- Pixels of the footprint neighbourhood centred at `p`: footprint offsets
that land in bounds (out-of-image parts of the footprint are ignored). -/
def footprintNbhd {h w : Nat} (fp : List (Int × Int)) (p : Pos h w) : List (Pos h w) :=
  fp.filterMap fun d =>
    let i : Int := (p.1 : Nat) + d.1
    let j : Int := (p.2 : Nat) + d.2
    if hb : 0 ≤ i ∧ i < (h : Int) ∧ 0 ≤ j ∧ j < (w : Int) then
      some (⟨i.toNat, by omega⟩, ⟨j.toNat, by omega⟩)
    else none

/-- Modelled from the spec (§4.4): `skimage.filters.rank.otsu` (absent from
`src/`).  For each pixel, accumulate the histogram of the footprint
neighbourhood by the rank-filter incremental mechanism and apply the shared
Otsu rule to it. -/
def rank_otsu {h w : Nat} (img : Pos h w → Nat) (B : Nat) (fp : List (Int × Int)) :
    Pos h w → Nat :=
  fun p => threshold_otsu (accumHist B ((footprintNbhd fp p).map img))

/-- The composition the spec's words describe for §4.4: per-pixel local
histogram via the shared region-restricted HistogramIndex (§4.1), followed by
the shared global Otsu rule (§4.2). -/
def rankOtsuSpec {h w : Nat} (img : Pos h w → Nat) (B : Nat) (fp : List (Int × Int)) :
    Pos h w → Nat :=
  fun p => threshold_otsu (regionHistogram img B (footprintNbhd fp p))

/-- A named global thresholding algorithm as consumed by the evaluator: a name
and a fallible map from a histogram to a scalar threshold. -/
structure NamedAlg where
  name : String
  run : List Nat → Except ThErr Nat

/-- One per-algorithm entry of the evaluator's output: either the algorithm's
threshold with its binary mask, or the failure it raised. -/
inductive EvalEntry (h w : Nat) where
  | success (name : String) (t : Nat) (mask : Pos h w → Bool) : EvalEntry h w
  | failure (name : String) (err : ThErr) : EvalEntry h w

/-- Full-image histogram with `B` bins (one bin per intensity value). -/
def fullHistogram {h w : Nat} (img : Pos h w → Nat) (B : Nat) : List Nat :=
  regionHistogram img B (posList h w)

/-- Modelled from the spec (§4.6): `skimage.filters.try_all_threshold` (absent
from `src/`).  Runs every named algorithm on the image's histogram; a failure
is caught and recorded as a per-algorithm failure entry, a success yields the
threshold and its binary mask, and the whole evaluation always returns one
entry per algorithm. -/
def try_all_threshold {h w : Nat} (img : Pos h w → Nat) (B : Nat) (algs : List NamedAlg) :
    List (EvalEntry h w) :=
  algs.map fun a =>
    match a.run (fullHistogram img B) with
    | Except.ok t => EvalEntry.success a.name t (fun p => decide (img p > t))
    | Except.error err => EvalEntry.failure a.name err

/-- Embedded from the source (`plot_thresholding_guide.py:116`): the
binarisation `binary = image > thresh` of the global-Otsu demonstration,
strict greater-than. -/
def maskGT {h w : Nat} (img : Pos h w → Nat) (t : Nat) : Pos h w → Bool :=
  fun p => decide (img p > t)

/-- Embedded from the source (`plot_thresholding_guide.py:195,211`): the
binarisations `global_otsu = img >= threshold_global_otsu` and
`img >= local_otsu` of the local-Otsu comparison, greater-or-equal. -/
def maskGE {h w : Nat} (img : Pos h w → Nat) (t : Nat) : Pos h w → Bool :=
  fun p => decide (img p ≥ t)

/-- Embedded from the source (`plot_coins_segmentation.py:112`): the all-zero
marker grid `markers = np.zeros_like(coins)`. -/
def zeroMarkers (h w : Nat) : Pos h w → Nat := fun _ => 0

/-- Embedded from the source (`plot_coins_segmentation.py:113`): the
assignment `markers[coins < 30] = 1`. -/
def assignLt30 {h w : Nat} (coins : Pos h w → Nat) (g : Pos h w → Nat) : Pos h w → Nat :=
  fun p => if coins p < 30 then 1 else g p

/-- Embedded from the source (`plot_coins_segmentation.py:114`): the
assignment `markers[coins > 150] = 2`. -/
def assignGt150 {h w : Nat} (coins : Pos h w → Nat) (g : Pos h w → Nat) : Pos h w → Nat :=
  fun p => if coins p > 150 then 2 else g p

/-- Embedded from the source (`plot_coins_segmentation.py:112-114`): the
marker construction of the coins example, the two assignments applied in
program order to the zero grid. -/
def coinsMarkers {h w : Nat} (coins : Pos h w → Nat) : Pos h w → Nat :=
  assignGt150 coins (assignLt30 coins (zeroMarkers h w))

/-- The Otsu thresholder wrapped for the evaluator. -/
def algOtsu : NamedAlg :=
  ⟨"otsu", fun hst => Except.ok (threshold_otsu hst)⟩

/-- The iterative-minimum thresholder wrapped for the evaluator, with its
iteration cap. -/
def algMinimum (cap : Nat) : NamedAlg :=
  ⟨"minimum", fun hst => threshold_minimum cap hst⟩

/-- Invariant of the flooding loop: markers keep their labels, every assigned
label is a marker label borne by a reachable pixel, queue entries carry
non-zero marker labels and sit on reachable pixels, and every finite-elevation
neighbour of a labeled pixel is labeled or pending in the queue. -/
structure WInv {h w : Nat} (e : Pos h w → Option Nat) (m : Pos h w → Nat) (c : Conn)
    (s : WState h w) : Prop where
  marker_fixed : ∀ p, m p ≠ 0 → s.labels p = m p
  labeled_from_marker : ∀ p, s.labels p ≠ 0 → ∃ q, m q ≠ 0 ∧ m q = s.labels p
  labeled_reachable : ∀ p, s.labels p ≠ 0 → Reachable e m c p
  queue_inv : ∀ ent ∈ s.queue, ent.lab ≠ 0 ∧ (∃ q, m q ≠ 0 ∧ m q = ent.lab) ∧
      Reachable e m c ent.pos
  frontier : ∀ q, s.labels q ≠ 0 → ∀ p ∈ neighbors c q, e p ≠ none →
      s.labels p ≠ 0 ∨ ∃ ent ∈ s.queue, ent.pos = p

/-! Helper lemmas about the priority queue. -/

theorem popMin_none {h w : Nat} {l : List (QEntry h w)} (hl : popMin l = none) : l = [] := by
  cases l with
  | nil => rfl
  | cons e rest =>
    rw [popMin] at hl
    rcases hrest : popMin rest with _ | pr
    · rw [hrest] at hl; exact absurd hl (by simp)
    · rw [hrest] at hl
      by_cases hle : e.prio ≤ pr.1.prio <;> simp [hle] at hl

theorem popMin_min {h w : Nat} :
    ∀ {l : List (QEntry h w)} {ent : QEntry h w} {rest : List (QEntry h w)},
      popMin l = some (ent, rest) → ∀ x ∈ l, ent.prio ≤ x.prio := by
  intro l
  induction l with
  | nil => intro ent rest hpop; simp [popMin] at hpop
  | cons e ts ih =>
    intro ent rest hpop x hx
    rw [popMin] at hpop
    rcases hts : popMin ts with _ | pr
    · rw [hts] at hpop
      simp only [Option.some.injEq, Prod.mk.injEq] at hpop
      have hnil := popMin_none hts
      subst hnil
      rcases hpop with ⟨he, -⟩
      subst he
      simp at hx
      subst hx
      exact le_refl _
    · rw [hts] at hpop
      by_cases hle : e.prio ≤ pr.1.prio
      · simp only [if_pos hle, Option.some.injEq, Prod.mk.injEq] at hpop
        rcases hpop with ⟨he, -⟩
        subst he
        rcases List.mem_cons.mp hx with hx | hx
        · subst hx; exact le_refl _
        · exact le_trans hle (ih (by rw [hts]) x hx)
      · simp only [if_neg hle, Option.some.injEq, Prod.mk.injEq] at hpop
        rcases hpop with ⟨he, -⟩
        subst he
        rcases List.mem_cons.mp hx with hx | hx
        · subst hx; exact le_of_lt (lt_of_not_le hle)
        · exact ih (by rw [hts]) x hx

theorem popMin_decomp {h w : Nat} :
    ∀ {l : List (QEntry h w)} {ent : QEntry h w} {rest : List (QEntry h w)},
      popMin l = some (ent, rest) →
      ∃ a b, l = a ++ ent :: b ∧ rest = a ++ b ∧ ∀ x ∈ a, ent.prio < x.prio := by
  intro l
  induction l with
  | nil => intro ent rest hpop; simp [popMin] at hpop
  | cons e ts ih =>
    intro ent rest hpop
    rw [popMin] at hpop
    rcases hts : popMin ts with _ | pr
    · rw [hts] at hpop
      simp only [Option.some.injEq, Prod.mk.injEq] at hpop
      rcases hpop with ⟨he, hr⟩
      subst he; subst hr
      exact ⟨[], ts, rfl, rfl, by intro x hx; simp at hx⟩
    · rw [hts] at hpop
      by_cases hle : e.prio ≤ pr.1.prio
      · simp only [if_pos hle, Option.some.injEq, Prod.mk.injEq] at hpop
        rcases hpop with ⟨he, hr⟩
        subst he; subst hr
        exact ⟨[], ts, rfl, rfl, by intro x hx; simp at hx⟩
      · simp only [if_neg hle, Option.some.injEq, Prod.mk.injEq] at hpop
        rcases hpop with ⟨he, hr⟩
        obtain ⟨a, b, hts_eq, hrest_eq, ha⟩ := ih (by rw [hts])
        rw [he] at hts_eq ha
        rw [he] at hle
        refine ⟨e :: a, b, ?_, ?_, ?_⟩
        · rw [List.cons_append, hts_eq]
        · rw [← hr, hrest_eq, List.cons_append]
        · intro x hx
          rcases List.mem_cons.mp hx with hx | hx
          · subst hx; exact lt_of_not_le hle
          · exact ha x hx

theorem popMin_perm {h w : Nat} {l : List (QEntry h w)} {ent : QEntry h w}
    {rest : List (QEntry h w)} (hpop : popMin l = some (ent, rest)) :
    l.Perm (ent :: rest) := by
  obtain ⟨a, b, hl, hr, -⟩ := popMin_decomp hpop
  rw [hl, hr]
  exact List.perm_middle

theorem popMin_length {h w : Nat} {l : List (QEntry h w)} {ent : QEntry h w}
    {rest : List (QEntry h w)} (hpop : popMin l = some (ent, rest)) :
    l.length = rest.length + 1 := by
  have := (popMin_perm hpop).length_eq
  simpa using this

theorem popMin_mem {h w : Nat} {l : List (QEntry h w)} {ent : QEntry h w}
    {rest : List (QEntry h w)} (hpop : popMin l = some (ent, rest)) : ent ∈ l := by
  exact (popMin_perm hpop).mem_iff.mpr (List.mem_cons_self _ _)

theorem popMin_mem_of_rest {h w : Nat} {l : List (QEntry h w)} {ent : QEntry h w}
    {rest : List (QEntry h w)} (hpop : popMin l = some (ent, rest)) {x : QEntry h w}
    (hx : x ∈ rest) : x ∈ l :=
  (popMin_perm hpop).mem_iff.mpr (List.mem_cons_of_mem _ hx)

theorem popMin_cases {h w : Nat} {l : List (QEntry h w)} {ent : QEntry h w}
    {rest : List (QEntry h w)} (hpop : popMin l = some (ent, rest)) {x : QEntry h w}
    (hx : x ∈ l) : x = ent ∨ x ∈ rest := by
  have := (popMin_perm hpop).mem_iff.mp hx
  simpa using this

/-! Helper lemmas about the grid and the seeded initial state. -/

theorem mem_posList {h w : Nat} (p : Pos h w) : p ∈ posList h w := by
  rcases p with ⟨i, j⟩
  rw [posList, List.mem_flatMap]
  exact ⟨i, List.mem_finRange i, List.mem_map.mpr ⟨j, List.mem_finRange j, rfl⟩⟩

theorem neighbors_length_le {h w : Nat} (c : Conn) (p : Pos h w) :
    (neighbors c p).length ≤ 8 := by
  have h1 : (neighbors c p).length ≤ (nbOffsets c).length := List.length_filterMap_le _ _
  cases c <;> simp [nbOffsets] at h1 <;> omega

theorem seedQueue_mem_iff {h w : Nat} (e : Pos h w → Option Nat) (m : Pos h w → Nat)
    (c : Conn) (ent : QEntry h w) :
    ent ∈ seedQueue e m c ↔ ∃ q, m q ≠ 0 ∧ ent.pos ∈ neighbors c q ∧ m ent.pos = 0 ∧
      e ent.pos = some ent.prio ∧ ent.lab = m q := by
  constructor
  · intro hent
    rw [seedQueue, List.mem_flatMap] at hent
    obtain ⟨q, -, hq⟩ := hent
    by_cases hmq : m q ≠ 0
    · rw [if_pos hmq, List.mem_filterMap] at hq
      obtain ⟨p, hp, hf⟩ := hq
      by_cases hmp : m p = 0
      · rw [if_pos hmp, Option.map_eq_some'] at hf
        obtain ⟨v, hv, hent_eq⟩ := hf
        refine ⟨q, hmq, ?_, ?_, ?_, ?_⟩ <;> rw [← hent_eq]
        · exact hp
        · exact hmp
        · exact hv
      · rw [if_neg hmp] at hf; exact absurd hf (by simp)
    · rw [if_neg hmq] at hq; simp at hq
  · rintro ⟨q, hmq, hpmem, hmp, hep, hlab⟩
    rw [seedQueue, List.mem_flatMap]
    refine ⟨q, mem_posList q, ?_⟩
    rw [if_pos hmq, List.mem_filterMap]
    refine ⟨ent.pos, hpmem, ?_⟩
    rw [if_pos hmp, hep, Option.map_some', ← hlab]

/-! Anatomy of one flooding step and preservation of the loop invariant. -/

theorem pushEntries_mem_iff {h w : Nat} (e : Pos h w → Option Nat) (c : Conn)
    (labels' : Pos h w → Nat) (pos : Pos h w) (lab : Nat) (x : QEntry h w) :
    x ∈ pushEntries e c labels' pos lab ↔
      x.pos ∈ neighbors c pos ∧ labels' x.pos = 0 ∧ e x.pos = some x.prio ∧ x.lab = lab := by
  rw [pushEntries, List.mem_filterMap]
  constructor
  · rintro ⟨n, hn, hf⟩
    by_cases hl : labels' n = 0
    · rw [if_pos hl, Option.map_eq_some'] at hf
      obtain ⟨v, hv, hx⟩ := hf
      refine ⟨?_, ?_, ?_, ?_⟩ <;> rw [← hx]
      · exact hn
      · exact hl
      · exact hv
    · rw [if_neg hl] at hf; cases hf
  · rintro ⟨hn, hl, hv, hlab⟩
    exact ⟨x.pos, hn, by rw [if_pos hl, hv, Option.map_some', ← hlab]⟩

theorem pushEntries_length_le {h w : Nat} (e : Pos h w → Option Nat) (c : Conn)
    (labels' : Pos h w → Nat) (pos : Pos h w) (lab : Nat) :
    (pushEntries e c labels' pos lab).length ≤ 8 :=
  le_trans (List.length_filterMap_le _ _) (neighbors_length_le c pos)

theorem wstep_eq_cases {h w : Nat} (e : Pos h w → Option Nat) (c : Conn) (s : WState h w) :
    (wstep e c s = none ∧ popMin s.queue = none) ∨
    (∃ ent rest, popMin s.queue = some (ent, rest) ∧
      ((s.labels ent.pos = 0 ∧
          wstep e c s = some ⟨Function.update s.labels ent.pos ent.lab,
            rest ++ pushEntries e c (Function.update s.labels ent.pos ent.lab)
              ent.pos ent.lab⟩) ∨
        (s.labels ent.pos ≠ 0 ∧ wstep e c s = some ⟨s.labels, rest⟩))) := by
  rcases hpop : popMin s.queue with _ | pr
  · exact Or.inl ⟨by rw [wstep, hpop], rfl⟩
  · obtain ⟨ent, rest⟩ := pr
    refine Or.inr ⟨ent, rest, rfl, ?_⟩
    by_cases hl : s.labels ent.pos = 0
    · exact Or.inl ⟨hl, by rw [wstep, hpop]; simp only [if_pos hl]⟩
    · exact Or.inr ⟨hl, by rw [wstep, hpop]; simp only [if_neg hl]⟩

theorem wstep_labels_mono {h w : Nat} {e : Pos h w → Option Nat} {c : Conn}
    {s s' : WState h w} (hstep : wstep e c s = some s') (p : Pos h w)
    (hp : s.labels p ≠ 0) : s'.labels p = s.labels p := by
  rcases wstep_eq_cases e c s with ⟨hn, -⟩ | ⟨ent, rest, hpop, hcase⟩
  · rw [hn] at hstep; cases hstep
  · rcases hcase with ⟨hl0, heq⟩ | ⟨hl0, heq⟩
    · rw [heq] at hstep
      obtain rfl := Option.some.inj hstep
      have hne : p ≠ ent.pos := fun hpe => hp (hpe ▸ hl0)
      exact Function.update_noteq hne _ _
    · rw [heq] at hstep
      obtain rfl := Option.some.inj hstep
      rfl

theorem runW_labels_mono {h w : Nat} {e : Pos h w → Option Nat} {c : Conn} :
    ∀ (f : Nat) (s : WState h w) (p : Pos h w), s.labels p ≠ 0 →
      (runW e c f s).labels p = s.labels p := by
  intro f
  induction f with
  | zero => intro s p _; rfl
  | succ f ih =>
    intro s p hp
    rw [runW]
    rcases hstep : wstep e c s with _ | s'
    · rfl
    · rw [ih s' p (by rw [wstep_labels_mono hstep p hp]; exact hp)]
      exact wstep_labels_mono hstep p hp

theorem WInv_wstep {h w : Nat} {e : Pos h w → Option Nat} {m : Pos h w → Nat} {c : Conn}
    {s s' : WState h w} (hinv : WInv e m c s) (hstep : wstep e c s = some s') :
    WInv e m c s' := by
  rcases wstep_eq_cases e c s with ⟨hn, -⟩ | ⟨ent, rest, hpop, hcase⟩
  · rw [hn] at hstep; cases hstep
  obtain ⟨hlab, hmk, hreach⟩ := hinv.queue_inv ent (popMin_mem hpop)
  rcases hcase with ⟨hl0, heq⟩ | ⟨hl0, heq⟩
  · -- assignment step
    rw [heq] at hstep
    obtain rfl := Option.some.inj hstep
    constructor
    · intro p hp
      have hlp : s.labels p = m p := hinv.marker_fixed p hp
      have hne : p ≠ ent.pos := by
        intro hpe
        subst hpe
        rw [hl0] at hlp
        exact hp hlp.symm
      show Function.update s.labels ent.pos ent.lab p = m p
      rw [Function.update_apply, if_neg hne, hlp]
    · intro p hp
      replace hp : Function.update s.labels ent.pos ent.lab p ≠ 0 := hp
      show ∃ q, m q ≠ 0 ∧ m q = Function.update s.labels ent.pos ent.lab p
      rw [Function.update_apply] at hp ⊢
      by_cases hpe : p = ent.pos
      · rw [if_pos hpe]; exact hmk
      · rw [if_neg hpe] at hp ⊢; exact hinv.labeled_from_marker p hp
    · intro p hp
      replace hp : Function.update s.labels ent.pos ent.lab p ≠ 0 := hp
      rw [Function.update_apply] at hp
      by_cases hpe : p = ent.pos
      · subst hpe; exact hreach
      · rw [if_neg hpe] at hp; exact hinv.labeled_reachable p hp
    · intro x hx
      rcases List.mem_append.mp hx with hx | hx
      · exact hinv.queue_inv x (popMin_mem_of_rest hpop hx)
      · obtain ⟨hxn, hxl, hxe, hxlab⟩ := (pushEntries_mem_iff _ _ _ _ _ _).mp hx
        refine ⟨by rw [hxlab]; exact hlab, by rw [hxlab]; exact hmk, ?_⟩
        exact Reachable.flood ent.pos x.pos hreach hxn (by rw [hxe]; simp)
    · intro q hq p hpnb hpe
      replace hq : Function.update s.labels ent.pos ent.lab q ≠ 0 := hq
      by_cases hqe : q = ent.pos
      · subst hqe
        by_cases hlp : Function.update s.labels ent.pos ent.lab p = 0
        · refine Or.inr ?_
          obtain ⟨v, hv⟩ := Option.ne_none_iff_exists'.mp hpe
          refine ⟨QEntry.mk v p ent.lab, List.mem_append.mpr (Or.inr ?_), rfl⟩
          exact (pushEntries_mem_iff _ _ _ _ _ _).mpr ⟨hpnb, hlp, hv, rfl⟩
        · exact Or.inl hlp
      · rw [Function.update_apply, if_neg hqe] at hq
        rcases hinv.frontier q hq p hpnb hpe with hlp | ⟨x, hxq, hxp⟩
        · refine Or.inl ?_
          show Function.update s.labels ent.pos ent.lab p ≠ 0
          rw [Function.update_apply]
          by_cases hpe' : p = ent.pos
          · rw [if_pos hpe']; exact hlab
          · rw [if_neg hpe']; exact hlp
        · rcases popMin_cases hpop hxq with hxe | hxr
          · refine Or.inl ?_
            show Function.update s.labels ent.pos ent.lab p ≠ 0
            rw [← hxp, hxe, Function.update_apply, if_pos rfl]
            exact hlab
          · exact Or.inr ⟨x, List.mem_append.mpr (Or.inl hxr), hxp⟩
  · -- stale-entry step
    rw [heq] at hstep
    obtain rfl := Option.some.inj hstep
    constructor
    · exact hinv.marker_fixed
    · exact hinv.labeled_from_marker
    · exact hinv.labeled_reachable
    · intro x hx
      exact hinv.queue_inv x (popMin_mem_of_rest hpop hx)
    · intro q hq p hpnb hpe
      rcases hinv.frontier q hq p hpnb hpe with hlp | ⟨x, hxq, hxp⟩
      · exact Or.inl hlp
      · rcases popMin_cases hpop hxq with hxe | hxr
        · exact Or.inl (by rw [← hxp, hxe]; exact hl0)
        · exact Or.inr ⟨x, hxr, hxp⟩

theorem WInv_init {h w : Nat} (e : Pos h w → Option Nat) (m : Pos h w → Nat) (c : Conn) :
    WInv e m c ⟨m, seedQueue e m c⟩ := by
  constructor
  · intro p _; rfl
  · intro p hp; exact ⟨p, hp, rfl⟩
  · intro p hp; exact Reachable.marker p hp
  · intro ent hent
    obtain ⟨q, hmq, hnb, hmp, hev, hlab⟩ := (seedQueue_mem_iff e m c ent).mp hent
    refine ⟨by rw [hlab]; exact hmq, ⟨q, hmq, hlab.symm⟩, ?_⟩
    exact Reachable.flood q ent.pos (Reachable.marker q hmq) hnb (by rw [hev]; simp)
  · intro q hq p hpnb hpe
    by_cases hmp : m p = 0
    · refine Or.inr ?_
      obtain ⟨v, hv⟩ := Option.ne_none_iff_exists'.mp hpe
      exact ⟨QEntry.mk v p (m q), (seedQueue_mem_iff e m c _).mpr
        ⟨q, hq, hpnb, hmp, hv, rfl⟩, rfl⟩
    · exact Or.inl hmp

theorem WInv_runW {h w : Nat} {e : Pos h w → Option Nat} {m : Pos h w → Nat} {c : Conn} :
    ∀ (f : Nat) (s : WState h w), WInv e m c s → WInv e m c (runW e c f s) := by
  intro f
  induction f with
  | zero => intro s hinv; exact hinv
  | succ f ih =>
    intro s hinv
    rw [runW]
    rcases hstep : wstep e c s with _ | s'
    · exact hinv
    · exact ih s' (WInv_wstep hinv hstep)

/-! Termination: the flooding loop drains its queue within the fuel bound. -/

theorem unlabeledCount_update {h w : Nat} (s : WState h w) (pos : Pos h w) (lab : Nat)
    (hpos : s.labels pos = 0) (hlab : lab ≠ 0) :
    (Finset.univ.filter fun p : Pos h w => Function.update s.labels pos lab p = 0).card + 1
      = unlabeledCount s := by
  rw [unlabeledCount]
  have hset : (Finset.univ.filter fun p : Pos h w => Function.update s.labels pos lab p = 0)
      = (Finset.univ.filter fun p : Pos h w => s.labels p = 0).erase pos := by
    ext p
    rw [Finset.mem_erase, Finset.mem_filter, Finset.mem_filter, Function.update_apply]
    constructor
    · rintro ⟨-, hp⟩
      by_cases hpe : p = pos
      · rw [if_pos hpe] at hp; exact absurd hp hlab
      · rw [if_neg hpe] at hp; exact ⟨hpe, Finset.mem_univ p, hp⟩
    · rintro ⟨hpe, -, hp⟩
      rw [if_neg hpe]
      exact ⟨Finset.mem_univ p, hp⟩
  have hmem : pos ∈ Finset.univ.filter fun p : Pos h w => s.labels p = 0 :=
    Finset.mem_filter.mpr ⟨Finset.mem_univ pos, hpos⟩
  rw [hset, Finset.card_erase_of_mem hmem]
  have := Finset.card_pos.mpr ⟨pos, hmem⟩
  omega

theorem unlabeledCount_le {h w : Nat} (s : WState h w) : unlabeledCount s ≤ h * w := by
  rw [unlabeledCount]
  calc (Finset.univ.filter fun p : Pos h w => s.labels p = 0).card
      ≤ (Finset.univ : Finset (Pos h w)).card := Finset.card_filter_le _ _
    _ = h * w := by rw [Finset.card_univ]; simp [Fintype.card_prod]

theorem runW_queue_nil {h w : Nat} {e : Pos h w → Option Nat} {c : Conn} :
    ∀ (f : Nat) (s : WState h w), (∀ ent ∈ s.queue, ent.lab ≠ 0) →
      s.queue.length + 8 * unlabeledCount s ≤ f → (runW e c f s).queue = [] := by
  intro f
  induction f with
  | zero =>
    intro s _ hm
    have : s.queue.length = 0 := by omega
    exact List.length_eq_zero.mp this
  | succ f ih =>
    intro s hq hm
    rw [runW]
    rcases hstep : wstep e c s with _ | s'
    · rcases wstep_eq_cases e c s with ⟨-, hp⟩ | ⟨ent, rest, hpop, hcase⟩
      · exact popMin_none hp
      · rcases hcase with ⟨-, heq⟩ | ⟨-, heq⟩ <;> rw [heq] at hstep <;> cases hstep
    · rcases wstep_eq_cases e c s with ⟨hn, -⟩ | ⟨ent, rest, hpop, hcase⟩
      · rw [hn] at hstep; cases hstep
      have hlen := popMin_length hpop
      have hentlab : ent.lab ≠ 0 := hq ent (popMin_mem hpop)
      rcases hcase with ⟨hl0, heq⟩ | ⟨hl0, heq⟩
      · rw [heq] at hstep
        obtain rfl := Option.some.inj hstep
        apply ih
        · intro x hx
          rcases List.mem_append.mp hx with hx | hx
          · exact hq x (popMin_mem_of_rest hpop hx)
          · obtain ⟨-, -, -, hxlab⟩ := (pushEntries_mem_iff _ _ _ _ _ _).mp hx
            rw [hxlab]; exact hentlab
        · have hql : (rest ++ pushEntries e c (Function.update s.labels ent.pos ent.lab)
              ent.pos ent.lab).length = rest.length +
              (pushEntries e c (Function.update s.labels ent.pos ent.lab)
                ent.pos ent.lab).length := List.length_append _ _
          have hpl := pushEntries_length_le e c
            (Function.update s.labels ent.pos ent.lab) ent.pos ent.lab
          have hu := unlabeledCount_update s ent.pos ent.lab hl0 hentlab
          show (rest ++ pushEntries e c (Function.update s.labels ent.pos ent.lab)
              ent.pos ent.lab).length + 8 *
              (Finset.univ.filter fun p : Pos h w =>
                Function.update s.labels ent.pos ent.lab p = 0).card ≤ f
          rw [hql]
          omega
      · rw [heq] at hstep
        obtain rfl := Option.some.inj hstep
        apply ih
        · intro x hx
          exact hq x (popMin_mem_of_rest hpop hx)
        · show rest.length + 8 * unlabeledCount ⟨s.labels, rest⟩ ≤ f
          have : unlabeledCount ⟨s.labels, rest⟩ = unlabeledCount s := rfl
          rw [this]
          omega

theorem watershedRun_queue_nil {h w : Nat} (e : Pos h w → Option Nat) (m : Pos h w → Nat)
    (c : Conn) : (watershedRun e m c).queue = [] := by
  rw [watershedRun]
  apply runW_queue_nil
  · intro x hx
    obtain ⟨q, hmq, -, -, -, hlab⟩ := (seedQueue_mem_iff e m c x).mp hx
    rw [hlab]; exact hmq
  · rw [wfuel]
    have hcount := unlabeledCount_le (⟨m, seedQueue e m c⟩ : WState h w)
    show (seedQueue e m c).length + 8 * unlabeledCount ⟨m, seedQueue e m c⟩ ≤
      (seedQueue e m c).length + 8 * h * w
    have h8 : 8 * h * w = 8 * (h * w) := by ring
    omega

theorem WInv_watershedRun {h w : Nat} (e : Pos h w → Option Nat) (m : Pos h w → Nat)
    (c : Conn) : WInv e m c (watershedRun e m c) :=
  WInv_runW _ _ (WInv_init e m c)

/-- C1 — Watershed marker fixed point: for every elevation surface, marker map
and connectivity, every pixel bearing a non-zero marker label keeps exactly
that label in the label map returned by the watershed engine. -/
theorem watershed_marker_fixed_point {h w : Nat} (e : Pos h w → Option Nat)
    (m : Pos h w → Nat) (c : Conn) (p : Pos h w) (hp : m p ≠ 0) :
    ∃ s, watershed e m c = Except.ok s ∧ s.labels p = m p := by
  have hne : ¬ ∀ q : Pos h w, m q = 0 := fun hall => hp (hall p)
  refine ⟨watershedRun e m c, ?_, ?_⟩
  · rw [watershed, dif_neg hne]
  · exact (WInv_watershedRun e m c).marker_fixed p hp

/-- Witness for C1 on a concrete 2×2 instance: a single marker at the origin
keeps its label. -/
theorem watershed_marker_fixed_point_witness :
    ∃ s, watershed (fun _ : Pos 2 2 => some 0)
        (fun p : Pos 2 2 => if p = (0, 0) then 1 else 0) Conn.c4 = Except.ok s ∧
      s.labels (0, 0) = (fun p : Pos 2 2 => if p = (0, 0) then 1 else 0) (0, 0) :=
  watershed_marker_fixed_point (fun _ => some 0)
    (fun p : Pos 2 2 => if p = (0, 0) then 1 else 0) Conn.c4 (0, 0) (by decide)

/-- C3 — Watershed coverage and totality: for every elevation surface and
non-empty marker map the returned label map is a dense grid of the image's
shape; every pixel reachable from a marker under the flood rule is assigned
one of the marker labels present in the marker map, and every unreachable
pixel (e.g. isolated behind an infinite-elevation barrier) retains the
unassigned sentinel 0. -/
theorem watershed_coverage {h w : Nat} (e : Pos h w → Option Nat) (m : Pos h w → Nat)
    (c : Conn) (hne : ∃ q : Pos h w, m q ≠ 0) :
    ∃ s, watershed e m c = Except.ok s ∧
      (labelGrid s.labels).length = h ∧
      (∀ row ∈ labelGrid s.labels, row.length = w) ∧
      (∀ p, Reachable e m c p → s.labels p ≠ 0 ∧ ∃ q, m q ≠ 0 ∧ m q = s.labels p) ∧
      (∀ p, ¬ Reachable e m c p → s.labels p = 0) := by
  obtain ⟨q0, hq0⟩ := hne
  have hnall : ¬ ∀ q : Pos h w, m q = 0 := fun hall => hq0 (hall q0)
  have hinv := WInv_watershedRun e m c
  have hqnil := watershedRun_queue_nil e m c
  refine ⟨watershedRun e m c, by rw [watershed, dif_neg hnall], ?_, ?_, ?_, ?_⟩
  · rw [labelGrid, List.length_map, List.length_finRange]
  · intro row hrow
    rw [labelGrid] at hrow
    obtain ⟨i, -, hrow⟩ := List.mem_map.mp hrow
    rw [← hrow, List.length_map, List.length_finRange]
  · intro p hreach
    have hlab : (watershedRun e m c).labels p ≠ 0 := by
      induction hreach with
      | marker p1 hp1 => rw [hinv.marker_fixed p1 hp1]; exact hp1
      | flood q1 p1 hq1 hnb hep ihq =>
        rcases hinv.frontier q1 ihq p1 hnb hep with hlp | ⟨x, hx, -⟩
        · exact hlp
        · rw [hqnil] at hx; cases hx
    exact ⟨hlab, hinv.labeled_from_marker p hlab⟩
  · intro p hnreach
    by_contra hlp
    exact hnreach (hinv.labeled_reachable p hlp)

/-- Witness for C3 on a concrete 1×3 instance whose middle pixel is an
infinite-elevation barrier: the marker map is non-empty and the theorem
applies. -/
theorem watershed_coverage_witness :
    ∃ s, watershed (fun p : Pos 1 3 => if p.2 = 1 then none else some 0)
        (fun p : Pos 1 3 => if p.2 = 0 then 1 else 0) Conn.c4 = Except.ok s ∧
      (labelGrid s.labels).length = 1 ∧
      (∀ row ∈ labelGrid s.labels, row.length = 3) ∧
      (∀ p, Reachable (fun p : Pos 1 3 => if p.2 = 1 then none else some 0)
          (fun p : Pos 1 3 => if p.2 = 0 then 1 else 0) Conn.c4 p →
        s.labels p ≠ 0 ∧ ∃ q, (fun p : Pos 1 3 => if p.2 = 0 then 1 else 0) q ≠ 0 ∧
          (fun p : Pos 1 3 => if p.2 = 0 then 1 else 0) q = s.labels p) ∧
      (∀ p, ¬ Reachable (fun p : Pos 1 3 => if p.2 = 1 then none else some 0)
          (fun p : Pos 1 3 => if p.2 = 0 then 1 else 0) Conn.c4 p → s.labels p = 0) :=
  watershed_coverage (fun p : Pos 1 3 => if p.2 = 1 then none else some 0)
    (fun p : Pos 1 3 => if p.2 = 0 then 1 else 0) Conn.c4 ⟨(0, 0), by decide⟩

/-! Determinism of the engine: the FIFO-among-equal-priorities pop is the
unique choice, so the step relation is functional and any two complete runs
agree. -/

theorem StepR_of_wstep {h w : Nat} {e : Pos h w → Option Nat} {c : Conn}
    {s t : WState h w} (hstep : wstep e c s = some t) : StepR e c s t := by
  rcases wstep_eq_cases e c s with ⟨hn, -⟩ | ⟨ent, rest, hpop, hcase⟩
  · rw [hn] at hstep; cases hstep
  obtain ⟨a, b, hdec, hrest, ha⟩ := popMin_decomp hpop
  have hmin := popMin_min hpop
  rcases hcase with ⟨hl0, heq⟩ | ⟨hl0, heq⟩
  · rw [heq] at hstep
    obtain rfl := Option.some.inj hstep
    refine ⟨ent, a, b, hdec, ha, hmin, ?_⟩
    rw [if_pos hl0, ← hrest]
  · rw [heq] at hstep
    obtain rfl := Option.some.inj hstep
    refine ⟨ent, a, b, hdec, ha, hmin, ?_⟩
    rw [if_neg hl0, ← hrest]

theorem minFirst_decomp_unique {h w : Nat} {l : List (QEntry h w)}
    {e1 e2 : QEntry h w} {a1 b1 a2 b2 : List (QEntry h w)}
    (h1 : l = a1 ++ e1 :: b1) (ha1 : ∀ x ∈ a1, e1.prio < x.prio)
    (hm1 : ∀ x ∈ l, e1.prio ≤ x.prio)
    (h2 : l = a2 ++ e2 :: b2) (ha2 : ∀ x ∈ a2, e2.prio < x.prio)
    (hm2 : ∀ x ∈ l, e2.prio ≤ x.prio) :
    a1 = a2 ∧ e1 = e2 ∧ b1 = b2 := by
  have key : ∀ (p1 p2 : QEntry h w) (c1 d1 c2 d2 : List (QEntry h w)),
      l = c1 ++ p1 :: d1 → (∀ x ∈ c1, p1.prio < x.prio) → (∀ x ∈ l, p1.prio ≤ x.prio) →
      l = c2 ++ p2 :: d2 → (∀ x ∈ c2, p2.prio < x.prio) → (∀ x ∈ l, p2.prio ≤ x.prio) →
      ¬ c1.length < c2.length := by
    intro p1 p2 c1 d1 c2 d2 hc1 hs1 hmin1 hc2 hs2 hmin2 hlt
    have hp1mem : p1 ∈ c2 := by
      have htake : (c2 ++ p2 :: d2).take c2.length = c2 := List.take_left _ _
      rw [← hc2, hc1, List.take_append_eq_append_take] at htake
      have h1' : c1.take c2.length = c1 := List.take_of_length_le (le_of_lt hlt)
      have h2' : c2.length - c1.length = (c2.length - c1.length - 1) + 1 := by omega
      rw [h1', h2', List.take_succ_cons] at htake
      rw [← htake]
      exact List.mem_append.mpr (Or.inr (List.mem_cons_self _ _))
    have hstrict := hs2 p1 hp1mem
    have hp2mem : p2 ∈ l := by
      rw [hc2]
      exact List.mem_append.mpr (Or.inr (List.mem_cons_self _ _))
    have hle := hmin1 p2 hp2mem
    omega
  have hlen : a1.length = a2.length := by
    rcases Nat.lt_trichotomy a1.length a2.length with hlt | heq | hgt
    · exact absurd hlt (key e1 e2 a1 b1 a2 b2 h1 ha1 hm1 h2 ha2 hm2)
    · exact heq
    · exact absurd hgt (key e2 e1 a2 b2 a1 b1 h2 ha2 hm2 h1 ha1 hm1)
  have happ : a1 ++ e1 :: b1 = a2 ++ e2 :: b2 := by rw [← h1, ← h2]
  obtain ⟨haeq, hrest⟩ := List.append_inj happ hlen
  obtain ⟨heeq, hbeq⟩ := List.cons.inj hrest
  exact ⟨haeq, heeq, hbeq⟩

theorem StepR_det {h w : Nat} {e : Pos h w → Option Nat} {c : Conn}
    {s t1 t2 : WState h w} (h1 : StepR e c s t1) (h2 : StepR e c s t2) : t1 = t2 := by
  obtain ⟨e1, a1, b1, hd1, ha1, hm1, ht1⟩ := h1
  obtain ⟨e2, a2, b2, hd2, ha2, hm2, ht2⟩ := h2
  obtain ⟨haeq, heeq, hbeq⟩ := minFirst_decomp_unique hd1 ha1 hm1 hd2 ha2 hm2
  subst haeq; subst hbeq
  rw [ht1, ht2, heeq]

theorem StepR_terminal {h w : Nat} {e : Pos h w → Option Nat} {c : Conn}
    {s t : WState h w} (hq : s.queue = []) : ¬ StepR e c s t := by
  rintro ⟨ent, a, b, hdec, -⟩
  rw [hq] at hdec
  exact List.not_mem_nil ent (hdec ▸ List.mem_append.mpr
    (Or.inr (List.mem_cons_self _ _)))

theorem rtg_deterministic {α : Type} {r : α → α → Prop}
    (hdet : ∀ a b1 b2, r a b1 → r a b2 → b1 = b2)
    {T : α → Prop} (hT : ∀ a b, T a → ¬ r a b) :
    ∀ {s t1 t2 : α}, Relation.ReflTransGen r s t1 → T t1 →
      Relation.ReflTransGen r s t2 → T t2 → t1 = t2 := by
  intro s t1 t2 hr1
  induction hr1 using Relation.ReflTransGen.head_induction_on with
  | refl =>
    intro hT1 hr2 hT2
    rcases Relation.ReflTransGen.cases_head hr2 with rfl | ⟨c0, hc0, -⟩
    · rfl
    · exact absurd hc0 (hT _ _ hT1)
  | head hstep htail ih =>
    intro hT1 hr2 hT2
    rcases Relation.ReflTransGen.cases_head hr2 with rfl | ⟨c0, hc0, hr2'⟩
    · exact absurd hstep (hT _ _ hT2)
    · obtain rfl := hdet _ _ _ hstep hc0
      exact ih hT1 hr2' hT2

/-- C4 — Watershed determinism: two complete runs of the relational engine on
identical inputs (same elevation surface, marker map and connectivity) produce
identical label maps; the step relation pops the minimum-priority entry with
FIFO tie-break, which makes it functional. -/
theorem watershed_determinism {h w : Nat} (e : Pos h w → Option Nat)
    (m : Pos h w → Nat) (c : Conn) (L1 L2 : Pos h w → Nat)
    (h1 : EngineRun e m c L1) (h2 : EngineRun e m c L2) : L1 = L2 := by
  obtain ⟨s1, hr1, hq1, hL1⟩ := h1
  obtain ⟨s2, hr2, hq2, hL2⟩ := h2
  have hs : s1 = s2 :=
    @rtg_deterministic (WState h w) (StepR e c)
      (fun _ _ _ ha hb => StepR_det ha hb) (fun st => st.queue = [])
      (fun _ _ hq => StepR_terminal hq) _ s1 s2 hr1 hq1 hr2 hq2
  rw [hL1, hL2, hs]

theorem runW_rtg {h w : Nat} (e : Pos h w → Option Nat) (c : Conn) :
    ∀ (f : Nat) (s : WState h w), Relation.ReflTransGen (StepR e c) s (runW e c f s) := by
  intro f
  induction f with
  | zero => intro s; exact Relation.ReflTransGen.refl
  | succ f ih =>
    intro s
    rw [runW]
    rcases hstep : wstep e c s with _ | s'
    · exact Relation.ReflTransGen.refl
    · exact Relation.ReflTransGen.head (StepR_of_wstep hstep) (ih s')

theorem engineRun_watershedRun {h w : Nat} (e : Pos h w → Option Nat)
    (m : Pos h w → Nat) (c : Conn) : EngineRun e m c (watershedRun e m c).labels :=
  ⟨watershedRun e m c, runW_rtg e c _ _, watershedRun_queue_nil e m c, rfl⟩

/-- Witness for C4: the functional engine's output on a concrete 2×2 instance
is a complete relational run, and the determinism theorem applies to two such
runs. -/
theorem watershed_determinism_witness :
    (watershedRun (fun _ : Pos 2 2 => some 0)
        (fun p : Pos 2 2 => if p = (0, 0) then 1 else 2) Conn.c4).labels =
      (watershedRun (fun _ : Pos 2 2 => some 0)
        (fun p : Pos 2 2 => if p = (0, 0) then 1 else 2) Conn.c4).labels :=
  watershed_determinism (fun _ => some 0)
    (fun p : Pos 2 2 => if p = (0, 0) then 1 else 2) Conn.c4 _ _
    (engineRun_watershedRun _ _ _) (engineRun_watershedRun _ _ _)

/-! Otsu: the scanned candidate is the first maximiser of the between-class
variance. -/

theorem argmaxQ_none {f : Nat → ℚ} : ∀ {l : List Nat}, argmaxQ f l = none → l = [] := by
  intro l hl
  cases l with
  | nil => rfl
  | cons t ts =>
    exfalso
    rw [argmaxQ] at hl
    rcases hts : argmaxQ f ts with _ | t'
    · rw [hts] at hl
      exact Option.noConfusion hl
    · rw [hts] at hl
      by_cases hc : f t < f t'
      · have hl' : (if f t < f t' then some t' else some t) = none := hl
        rw [if_pos hc] at hl'
        exact Option.noConfusion hl'
      · have hl' : (if f t < f t' then some t' else some t) = none := hl
        rw [if_neg hc] at hl'
        exact Option.noConfusion hl'

theorem argmaxQ_spec {f : Nat → ℚ} :
    ∀ {l : List Nat} {r : Nat}, argmaxQ f l = some r →
      ∃ a b, l = a ++ r :: b ∧ (∀ x ∈ a, f x < f r) ∧ ∀ x ∈ l, f x ≤ f r := by
  intro l
  induction l with
  | nil => intro r hr; exact Option.noConfusion hr
  | cons t ts ih =>
    intro r hr
    rw [argmaxQ] at hr
    rcases hts : argmaxQ f ts with _ | t'
    · rw [hts] at hr
      have hnil : ts = [] := argmaxQ_none hts
      subst hnil
      obtain rfl : t = r := Option.some.inj hr
      refine ⟨[], [], rfl, ?_, ?_⟩
      · intro x hx; cases hx
      · intro x hx
        rcases List.mem_cons.mp hx with rfl | hx
        · exact le_refl _
        · cases hx
    · rw [hts] at hr
      obtain ⟨a', b', hts_eq, ha', hall'⟩ := ih hts
      by_cases hc : f t < f t'
      · have hr2 : (if f t < f t' then some t' else some t) = some r := hr
        rw [if_pos hc] at hr2
        obtain rfl : t' = r := Option.some.inj hr2
        refine ⟨t :: a', b', by rw [List.cons_append, hts_eq], ?_, ?_⟩
        · intro x hx
          rcases List.mem_cons.mp hx with rfl | hx
          · exact hc
          · exact ha' x hx
        · intro x hx
          rcases List.mem_cons.mp hx with rfl | hx
          · exact le_of_lt hc
          · exact hall' x hx
      · have hr2 : (if f t < f t' then some t' else some t) = some r := hr
        rw [if_neg hc] at hr2
        obtain rfl : t = r := Option.some.inj hr2
        refine ⟨[], ts, rfl, ?_, ?_⟩
        · intro x hx; cases hx
        · intro x hx
          rcases List.mem_cons.mp hx with rfl | hx
          · exact le_refl _
          · exact le_trans (hall' x hx) (le_of_not_lt hc)

/-- C2 — Otsu optimality: for every non-empty histogram, the threshold chosen
by the Otsu thresholder is a candidate split of the histogram domain, no
candidate attains a strictly greater between-class variance, and every
smaller candidate attains a strictly smaller one — so among the maximisers
the smallest candidate is returned. -/
theorem threshold_otsu_optimal (hist : List Nat) (hne : hist ≠ []) :
    threshold_otsu hist < hist.length ∧
    (∀ u, u < hist.length → bcv hist u ≤ bcv hist (threshold_otsu hist)) ∧
    (∀ u, u < threshold_otsu hist → bcv hist u < bcv hist (threshold_otsu hist)) := by
  have hlen : hist.length ≠ 0 := fun h0 => hne (List.length_eq_zero.mp h0)
  rcases hr : argmaxQ (bcv hist) (List.range hist.length) with _ | r
  · exfalso
    have hran := argmaxQ_none hr
    exact hlen (by simpa using hran)
  · obtain ⟨a, b, hdec, hstrict, hall⟩ := argmaxQ_spec hr
    have hT : threshold_otsu hist = r := by rw [threshold_otsu, hr]; rfl
    rw [hT]
    have hrmem : r ∈ List.range hist.length := by
      rw [hdec]
      exact List.mem_append.mpr (Or.inr (List.mem_cons_self _ _))
    have hrlt : r < hist.length := List.mem_range.mp hrmem
    refine ⟨hrlt, ?_, ?_⟩
    · intro u hu
      exact hall u (List.mem_range.mpr hu)
    · intro u hur
      have h1 : a.length < (List.range hist.length).length := by
        rw [hdec, List.length_append, List.length_cons]
        omega
    -- the candidate right after the strict-prefix `a` in `range` is `a.length`
      have hget := List.getElem_of_eq hdec h1
      rw [List.getElem_range _ h1] at hget
      have hb2 : a.length < (a ++ r :: b).length := hdec ▸ h1
      have hget2 : (a ++ r :: b)[a.length] = r := by
        rw [List.getElem_append_right (le_refl a.length)]
        simp
      have hra : r = a.length := by rw [← hget2, ← hget]
      have ha_take : (List.range hist.length).take a.length = a := by
        rw [hdec, List.take_append_eq_append_take,
          List.take_of_length_le (le_refl a.length), Nat.sub_self,
          List.take_zero, List.append_nil]
      have hmin : min a.length hist.length = a.length := by
        apply Nat.min_eq_left
        rw [← List.length_range hist.length]
        exact le_of_lt h1
      have ha_range : a = List.range a.length := by
        rw [← hmin, ← List.take_range, ha_take]
      have humem : u ∈ a := by
        rw [ha_range, List.mem_range]
        omega
      exact hstrict u humem

/-- Witness for C2 on a concrete bimodal histogram. -/
theorem threshold_otsu_optimal_witness :
    threshold_otsu [5, 0, 0, 3] < 4 ∧
    (∀ u, u < 4 → bcv [5, 0, 0, 3] u ≤ bcv [5, 0, 0, 3] (threshold_otsu [5, 0, 0, 3])) ∧
    (∀ u, u < threshold_otsu [5, 0, 0, 3] →
      bcv [5, 0, 0, 3] u < bcv [5, 0, 0, 3] (threshold_otsu [5, 0, 0, 3])) :=
  threshold_otsu_optimal [5, 0, 0, 3] (by decide)

/-- C5 — Iterative-minimum termination and failure mode: the thresholder's
smoothing loop is capped; whenever no iterate within the cap has exactly two
local maxima (in particular on histograms that never become bimodal), the
thresholder returns the NonBimodalHistogramError instead of looping or
producing a value.  The embedding is total by structural recursion on the
cap, which is the claimed termination. -/
theorem threshold_minimum_nonbimodal (maxIter : Nat) (hist : List Nat)
    (hno : ∀ k, k ≤ maxIter → maximaCount (smoothIter k hist) ≠ 2) :
    threshold_minimum maxIter hist = Except.error ThErr.nonBimodalHistogram := by
  rw [threshold_minimum]
  induction maxIter generalizing hist with
  | zero =>
    have h0 : maximaCount hist ≠ 2 := hno 0 (le_refl 0)
    rw [thresholdMinimumAux, if_neg h0]
  | succ f ih =>
    have h0 : maximaCount hist ≠ 2 := hno 0 (Nat.zero_le _)
    rw [thresholdMinimumAux, if_neg h0]
    exact ih (smooth3 hist) fun k hk => hno (k + 1) (Nat.succ_le_succ hk)

/-- Witness for C5: a constant (strictly non-bimodal) histogram exceeds a cap
of 3 iterations and the thresholder errors out. -/
theorem threshold_minimum_nonbimodal_witness :
    (∀ k, k ≤ (3 : Nat) → maximaCount (smoothIter k [1, 1, 1]) ≠ 2) ∧
    threshold_minimum 3 [1, 1, 1] = Except.error ThErr.nonBimodalHistogram :=
  ⟨by decide, threshold_minimum_nonbimodal 3 [1, 1, 1] (by decide)⟩

/-- C6 — Local thresholder on constant images: for every constant image of
value `cVal`, every odd (hence positive) block size and every offset, the
threshold surface is accepted and constant with value `cVal - offset`, for
every border-handling policy. -/
theorem threshold_local_constant {h w : Nat} (img : Pos h w → ℚ) (b : Nat)
    (offset cVal : ℚ) (polH : Int → Fin h) (polW : Int → Fin w) (hb : b % 2 = 1)
    (hconst : ∀ p, img p = cVal) :
    ∃ f, threshold_local img b offset polH polW = Except.ok f ∧
      ∀ p, f p = cVal - offset := by
  rw [threshold_local, if_pos hb]
  have hb0 : b ≠ 0 := by omega
  have hcast : ((b * b : Nat) : ℚ) ≠ 0 := Nat.cast_ne_zero.mpr (Nat.mul_ne_zero hb0 hb0)
  have key : ∀ g : Nat → Pos h w,
      ((List.range (b * b)).map fun k => img (g k)).sum / ((b * b : Nat) : ℚ) - offset
        = cVal - offset := by
    intro g
    have hmap : ((List.range (b * b)).map fun k => img (g k))
        = List.replicate (b * b) cVal := by
      apply List.eq_replicate_iff.mpr
      refine ⟨by rw [List.length_map, List.length_range], ?_⟩
      intro x hx
      obtain ⟨k, -, hk⟩ := List.mem_map.mp hx
      rw [← hk, hconst]
    rw [hmap, List.sum_replicate, nsmul_eq_mul, mul_div_cancel_left₀ _ hcast]
  exact ⟨_, rfl, fun p => key _⟩

/-- Witness for C6: a constant 2×2 image of value 5, block size 3, offset 1
and reflect border policy give the constant surface 4. -/
theorem threshold_local_constant_witness :
    ∃ f, threshold_local (fun _ : Pos 2 2 => (5 : ℚ)) 3 1
        (reflectIdx 2 (by decide)) (reflectIdx 2 (by decide)) = Except.ok f ∧
      ∀ p, f p = (5 : ℚ) - 1 :=
  threshold_local_constant (fun _ : Pos 2 2 => (5 : ℚ)) 3 1 5
    (reflectIdx 2 (by decide)) (reflectIdx 2 (by decide)) (by decide) (fun _ => rfl)

/-! The rank-filter incremental histogram agrees with the shared
region-restricted accumulation. -/

theorem accumFold_length : ∀ (vals : List Nat) (hst : List Nat),
    (vals.foldl (fun hs v => hs.set v (hs.getD v 0 + 1)) hst).length = hst.length := by
  intro vals
  induction vals with
  | nil => intro hst; rfl
  | cons x xs ih =>
    intro hst
    rw [List.foldl_cons, ih, List.length_set]

theorem accumFold_getD : ∀ (vals : List Nat) (hst : List Nat) (v : Nat),
    v < hst.length → (∀ x ∈ vals, x < hst.length) →
    (vals.foldl (fun hs u => hs.set u (hs.getD u 0 + 1)) hst).getD v 0 =
      hst.getD v 0 + vals.count v := by
  intro vals
  induction vals with
  | nil => intro hst v _ _; simp
  | cons x xs ih =>
    intro hst v hv hall
    have hx : x < hst.length := hall x (List.mem_cons_self _ _)
    rw [List.foldl_cons]
    rw [ih (hst.set x (hst.getD x 0 + 1)) v (by rw [List.length_set]; exact hv)
      (fun y hy => by rw [List.length_set]; exact hall y (List.mem_cons_of_mem _ hy))]
    rw [List.count_cons]
    have hgetset : (hst.set x (hst.getD x 0 + 1)).getD v 0 =
        hst.getD v 0 + if x == v then 1 else 0 := by
      by_cases hxv : x = v
      · subst hxv
        rw [List.getD_eq_getElem _ _ (by rw [List.length_set]; exact hv),
          List.getElem_set_self, List.getD_eq_getElem _ _ hv]
        simp
      · rw [List.getD_eq_getElem _ _ (by rw [List.length_set]; exact hv),
          List.getElem_set_ne (by simpa using hxv), List.getD_eq_getElem _ _ hv]
        simp [hxv]
    rw [hgetset]
    omega

theorem accumHist_eq_regionHistogram {h w : Nat} (img : Pos h w → Nat) (B : Nat)
    (region : List (Pos h w)) (himg : ∀ q, img q < B) :
    accumHist B (region.map img) = regionHistogram img B region := by
  apply List.ext_getElem
  · rw [accumHist, accumFold_length, List.length_replicate, regionHistogram,
      List.length_map, List.length_range]
  · intro i hi1 hi2
    have hiB : i < B := by
      rw [regionHistogram, List.length_map, List.length_range] at hi2
      exact hi2
    have hlhs : (accumHist B (region.map img))[i] =
        (accumHist B (region.map img)).getD i 0 :=
      (List.getD_eq_getElem _ _ hi1).symm
    rw [hlhs, accumHist, accumFold_getD (region.map img) (List.replicate B 0) i
      (by rw [List.length_replicate]; exact hiB)
      (by intro x hx
          obtain ⟨q, -, hq⟩ := List.mem_map.mp hx
          rw [List.length_replicate, ← hq]
          exact himg q)]
    have hrep : (List.replicate B (0 : Nat)).getD i 0 = 0 := by
      rw [List.getD_eq_getElem _ _ (by rw [List.length_replicate]; exact hiB),
        List.getElem_replicate]
    rw [hrep]
    have hrhs : (regionHistogram img B region)[i] =
        (region.filter fun p => img p = i).length := by
      simp only [regionHistogram, List.getElem_map, List.getElem_range]
    rw [hrhs]
    have hcount : (region.map img).count i =
        (region.filter fun p => img p = i).length := by
      rw [List.count, List.countP_map, List.countP_eq_length_filter]
      congr 1
    rw [hcount]
    omega

/-- C7 — RankFilterOtsu agreement with global Otsu: for every image with
values inside the bin range and every footprint, the per-pixel threshold of
the rank-filter Otsu equals the composition of the shared region-restricted
histogram accumulation with the shared global Otsu rule on the footprint
neighbourhood of that pixel. -/
theorem rank_otsu_refines_spec {h w : Nat} (img : Pos h w → Nat) (B : Nat)
    (fp : List (Int × Int)) (himg : ∀ q, img q < B) (p : Pos h w) :
    rank_otsu img B fp p = rankOtsuSpec img B fp p := by
  rw [rank_otsu, rankOtsuSpec, accumHist_eq_regionHistogram img B _ himg]

/-- Witness for C7 on a concrete 2×2 image, 4 bins and a cross footprint. -/
theorem rank_otsu_refines_spec_witness :
    rank_otsu (fun p : Pos 2 2 => if p = (0, 0) then 3 else 1) 4
        [(-1, 0), (0, -1), (0, 0), (0, 1), (1, 0)] (0, 0) =
      rankOtsuSpec (fun p : Pos 2 2 => if p = (0, 0) then 3 else 1) 4
        [(-1, 0), (0, -1), (0, 0), (0, 1), (1, 0)] (0, 0) :=
  rank_otsu_refines_spec (fun p : Pos 2 2 => if p = (0, 0) then 3 else 1) 4
    [(-1, 0), (0, -1), (0, 0), (0, 1), (1, 0)] (by decide) (0, 0)

/-- C8 — ThresholdEvaluator partial results: the evaluator returns one entry
per named algorithm; an algorithm that succeeds contributes its threshold and
binary mask, an algorithm that fails contributes a per-algorithm failure
entry, and no failure is propagated (the result is a total list, never an
exception). -/
theorem try_all_threshold_partial {h w : Nat} (img : Pos h w → Nat) (B : Nat)
    (algs : List NamedAlg) (i : Nat) (hi : i < algs.length) :
    (try_all_threshold img B algs).length = algs.length ∧
    (∀ t, (algs[i]).run (fullHistogram img B) = Except.ok t →
      (try_all_threshold img B algs).getD i (EvalEntry.failure "" ThErr.invalidParameter) =
        EvalEntry.success (algs[i]).name t fun p => decide (img p > t)) ∧
    (∀ err, (algs[i]).run (fullHistogram img B) = Except.error err →
      (try_all_threshold img B algs).getD i (EvalEntry.failure "" ThErr.invalidParameter) =
        EvalEntry.failure (algs[i]).name err) := by
  have hlen : (try_all_threshold img B algs).length = algs.length := by
    rw [try_all_threshold, List.length_map]
  have hget : (try_all_threshold img B algs).getD i
      (EvalEntry.failure "" ThErr.invalidParameter) =
      match (algs[i]).run (fullHistogram img B) with
      | Except.ok t => EvalEntry.success (algs[i]).name t fun p => decide (img p > t)
      | Except.error err => EvalEntry.failure (algs[i]).name err := by
    rw [List.getD_eq_getElem _ _ (by rw [hlen]; exact hi)]
    simp only [try_all_threshold, List.getElem_map]
  refine ⟨hlen, ?_, ?_⟩
  · intro t ht
    rw [hget, ht]
  · intro err herr
    rw [hget, herr]

/-- Witness for C8: on a concrete 1×2 image, the evaluator runs Otsu (which
succeeds) and the capped iterative-minimum (which fails) and returns one
entry for each. -/
theorem try_all_threshold_partial_witness :
    ((try_all_threshold (fun p : Pos 1 2 => if p.2 = 0 then 0 else 1) 2
        [algOtsu, algMinimum 1]).length = 2 ∧
      (∀ t, (algMinimum 1).run (fullHistogram (fun p : Pos 1 2 => if p.2 = 0 then 0 else 1) 2)
          = Except.ok t →
        (try_all_threshold (fun p : Pos 1 2 => if p.2 = 0 then 0 else 1) 2
            [algOtsu, algMinimum 1]).getD 1 (EvalEntry.failure "" ThErr.invalidParameter) =
          EvalEntry.success (algMinimum 1).name t
            fun p => decide ((if p.2 = 0 then 0 else 1) > t)) ∧
      (∀ err, (algMinimum 1).run (fullHistogram (fun p : Pos 1 2 => if p.2 = 0 then 0 else 1) 2)
          = Except.error err →
        (try_all_threshold (fun p : Pos 1 2 => if p.2 = 0 then 0 else 1) 2
            [algOtsu, algMinimum 1]).getD 1 (EvalEntry.failure "" ThErr.invalidParameter) =
          EvalEntry.failure (algMinimum 1).name err)) :=
  try_all_threshold_partial (fun p : Pos 1 2 => if p.2 = 0 then 0 else 1) 2
    [algOtsu, algMinimum 1] 1 (by decide)

/-- C9 — Implicit binarisation inconsistency: the strict mask of the
global-Otsu demonstration and the greater-or-equal mask of the local-Otsu
comparison differ exactly at the pixels whose intensity equals the threshold;
there such a pixel is background under the strict comparison and foreground
under the non-strict one. -/
theorem mask_boundary_inconsistency {h w : Nat} (img : Pos h w → Nat) (t : Nat)
    (p : Pos h w) :
    (maskGT img t p ≠ maskGE img t p ↔ img p = t) ∧
    (img p = t → maskGT img t p = false ∧ maskGE img t p = true) := by
  simp only [maskGT, maskGE, ne_eq, decide_eq_decide, decide_eq_true_eq,
    decide_eq_false_iff_not]
  omega

/-- Witness for C9 at a concrete threshold-valued pixel. -/
theorem mask_boundary_inconsistency_witness :
    ((maskGT (fun _ : Pos 1 1 => 7) 7 (0, 0) ≠ maskGE (fun _ : Pos 1 1 => 7) 7 (0, 0) ↔
      (fun _ : Pos 1 1 => 7) (0, 0) = 7) ∧
    ((fun _ : Pos 1 1 => 7) (0, 0) = 7 →
      maskGT (fun _ : Pos 1 1 => 7) 7 (0, 0) = false ∧
      maskGE (fun _ : Pos 1 1 => 7) 7 (0, 0) = true)) :=
  mask_boundary_inconsistency (fun _ : Pos 1 1 => 7) 7 (0, 0)

/-- C10 — Marker construction well-formedness: no pixel satisfies both marker
predicates (an intensity cannot be below 30 and above 150), the two marker
assignments commute, and any pixel with intensity in `[30, 150]` keeps the
unlabeled sentinel 0. -/
theorem coins_markers_wellformed {h w : Nat} (coins : Pos h w → Nat) (p : Pos h w) :
    ¬(coins p < 30 ∧ 150 < coins p) ∧
    coinsMarkers coins p = assignLt30 coins (assignGt150 coins (zeroMarkers h w)) p ∧
    (30 ≤ coins p → coins p ≤ 150 → coinsMarkers coins p = 0) := by
  refine ⟨by omega, ?_, ?_⟩
  · simp only [coinsMarkers, assignLt30, assignGt150, zeroMarkers]
    split_ifs <;> omega
  · intro h1 h2
    simp only [coinsMarkers, assignLt30, assignGt150, zeroMarkers]
    split_ifs <;> omega

/-- Witness for C10 at a concrete mid-range intensity. -/
theorem coins_markers_wellformed_witness :
    (¬((fun _ : Pos 1 1 => 100) (0, 0) < 30 ∧ 150 < (fun _ : Pos 1 1 => 100) (0, 0)) ∧
    coinsMarkers (fun _ : Pos 1 1 => 100) (0, 0) =
      assignLt30 (fun _ : Pos 1 1 => 100)
        (assignGt150 (fun _ : Pos 1 1 => 100) (zeroMarkers 1 1)) (0, 0) ∧
    (30 ≤ (fun _ : Pos 1 1 => 100) (0, 0) → (fun _ : Pos 1 1 => 100) (0, 0) ≤ 150 →
      coinsMarkers (fun _ : Pos 1 1 => 100) (0, 0) = 0)) :=
  coins_markers_wellformed (fun _ : Pos 1 1 => 100) (0, 0)

end SpecProof
